import Mathlib

/-!
# Verification of the katon trading engine

A shallow embedding of the trading-session / decision-execution engine:
the RSI indicator, the automated swap executor with its minimum-amount
floors and precision guards, the AI-wallet swap provider, the decision
cycle's confidence gating, and the strategy registry's single-active
invariant.  Amounts and prices are embedded as rationals; the one place
where JavaScript number semantics escape the rationals (the final
`avgGain / avgLoss` division of the RSI, which can be `0 / 0 = NaN` or
`x / 0 = Infinity`) is modelled by an explicit extended number type.
-/

/-- JavaScript number results relevant to the RSI computation: a finite
value (embedded as a rational), `NaN`, `Infinity` or `-Infinity`. -/
inductive JsNum where
  | num (q : ℚ)
  | nan
  | inf
  | ninf
deriving DecidableEq, Repr

/-- JavaScript addition on `JsNum` (the cases reachable here). -/
def jsAdd : JsNum → JsNum → JsNum
  | .nan, _ => .nan
  | _, .nan => .nan
  | .inf, .ninf => .nan
  | .ninf, .inf => .nan
  | .inf, _ => .inf
  | _, .inf => .inf
  | .ninf, _ => .ninf
  | _, .ninf => .ninf
  | .num a, .num b => .num (a + b)

/-- JavaScript subtraction on `JsNum`. -/
def jsSub : JsNum → JsNum → JsNum
  | .nan, _ => .nan
  | _, .nan => .nan
  | .inf, .inf => .nan
  | .ninf, .ninf => .nan
  | .inf, _ => .inf
  | _, .inf => .ninf
  | .ninf, _ => .ninf
  | _, .ninf => .inf
  | .num a, .num b => .num (a - b)

/-- JavaScript division on `JsNum`: `0 / 0 = NaN`, `x / 0 = ±Infinity`
for `x ≠ 0`, `x / ±Infinity = 0`. -/
def jsDiv : JsNum → JsNum → JsNum
  | .nan, _ => .nan
  | _, .nan => .nan
  | .inf, .inf => .nan
  | .inf, .ninf => .nan
  | .ninf, .inf => .nan
  | .ninf, .ninf => .nan
  | .inf, .num b => if b < 0 then .ninf else .inf
  | .ninf, .num b => if b < 0 then .inf else .ninf
  | .num _, .inf => .num 0
  | .num _, .ninf => .num 0
  | .num a, .num b =>
      if b = 0 then (if a = 0 then .nan else if 0 < a then .inf else .ninf)
      else .num (a / b)

/-- `calculateRSI(prices, periods = 14)` translated from the source.
The two `for` loops become folds over index ranges; every intermediate
quantity stays rational (divisions are by `periods`, nonzero for the
default 14), and the final `rs = avgGain / avgLoss` together with
`100 - 100 / (1 + rs)` is computed with JavaScript semantics, since
`avgLoss` can be `0`. -/
def calculateRSI (prices : List ℚ) (periods : ℕ := 14) : JsNum :=
  if prices.length < periods + 1 then .num 50
  else
    let gl : ℚ × ℚ := (List.range periods).foldl
      (fun gl i =>
        let difference := prices.getD (i + 1) 0 - prices.getD i 0
        if 0 ≤ difference then (gl.1 + difference, gl.2)
        else (gl.1, gl.2 - difference))
      (0, 0)
    let avgGain : ℚ := gl.1 / periods
    let avgLoss : ℚ := gl.2 / periods
    let av : ℚ × ℚ := (List.range (prices.length - (periods + 1))).foldl
      (fun av j =>
        let i := periods + 1 + j
        let difference := prices.getD i 0 - prices.getD (i - 1) 0
        if 0 ≤ difference then
          ((av.1 * ((periods : ℚ) - 1) + difference) / periods,
           (av.2 * ((periods : ℚ) - 1)) / periods)
        else
          ((av.1 * ((periods : ℚ) - 1)) / periods,
           (av.2 * ((periods : ℚ) - 1) - difference) / periods))
      (avgGain, avgLoss)
    let rs := jsDiv (.num av.1) (.num av.2)
    jsSub (.num 100) (jsDiv (.num 100) (jsAdd (.num 1) rs))

/-- Consecutive differences of a price series:
`priceDiffs [p₀, p₁, …] = [p₁ - p₀, p₂ - p₁, …]`. -/
def priceDiffs : List ℚ → List ℚ
  | [] => []
  | [_] => []
  | a :: b :: rest => (b - a) :: priceDiffs (b :: rest)

/-- One step of Wilder's smoothing, as written in the spec:
`avgGain = (avgGain*(periods-1) + gain)/periods`, `avgLoss` analogously. -/
def wilderStep (periods : ℕ) (av : ℚ × ℚ) (d : ℚ) : ℚ × ℚ :=
  if 0 ≤ d then
    ((av.1 * ((periods : ℚ) - 1) + d) / periods,
     (av.2 * ((periods : ℚ) - 1)) / periods)
  else
    ((av.1 * ((periods : ℚ) - 1)) / periods,
     (av.2 * ((periods : ℚ) - 1) - d) / periods)

/-- The spec's reference definition of the RSI, stated over the list of
consecutive differences: fewer than `periods + 1` samples give a neutral
50; the first `periods` differences are averaged simply; every later
difference is folded in with Wilder's smoothing; the result is
`100 - 100 / (1 + avgGain / avgLoss)`. -/
def rsiSpec (prices : List ℚ) (periods : ℕ := 14) : JsNum :=
  if prices.length < periods + 1 then .num 50
  else
    let diffs := priceDiffs prices
    let firstDiffs := diffs.take periods
    let avgGain : ℚ := (firstDiffs.map (fun d => if 0 ≤ d then d else 0)).sum / periods
    let avgLoss : ℚ := (firstDiffs.map (fun d => if 0 ≤ d then 0 else -d)).sum / periods
    let av := (diffs.drop periods).foldl (wilderStep periods) (avgGain, avgLoss)
    let rs := jsDiv (.num av.1) (.num av.2)
    jsSub (.num 100) (jsDiv (.num 100) (jsAdd (.num 1) rs))

example : calculateRSI [1, 2, 3] 14 = .num 50 := by decide

/-! ## Swap execution -/

/-- A trade decision, produced fresh each decision cycle. -/
inductive TradeAction where
  | BUY
  | SELL
  | HOLD
deriving DecidableEq, Repr

structure Decision where
  action : TradeAction
  tokenPair : String
  amount : ℚ
  confidence : ℚ
  reasoning : List String
  suggestedSlippage : ℚ
deriving DecidableEq, Repr

/-- Environment-configured token addresses (`import.meta.env.VITE_*`);
their values are opaque configuration and never inspected. -/
def USDC_ADDRESS : String := "VITE_USDC_ADDRESS"

def WBTC_ADDRESS : String := "VITE_WBTC_ADDRESS"

/-- `USDC.decimals`: the token definitions live in `AlphaRouterService`
(outside the embedded sources); the executor's own comment fixes the
value: "This will be 18 for our testnet tokens". -/
def USDC_decimals : ℕ := 18

/-- `WBTC.decimals`, likewise 18. -/
def WBTC_decimals : ℕ := 18

/-- `x.toFixed(d)` followed by `ethers.utils.parseUnits(·, d)`: the
amount rounded to `d` decimal places (JavaScript `toFixed` rounds half
away from zero, which for the nonnegative amounts reaching this point is
half up) and scaled to integer base units. -/
def toFixedBase (q : ℚ) (d : ℕ) : ℤ := ⌊q * 10 ^ d + 1 / 2⌋

/-- `x.toString().includes('e-')` for a finite JavaScript number:
`toString` uses exponential notation with a negative exponent exactly
when `x ≠ 0` and `|x| < 1e-6`. -/
abbrev jsToStringIncludesEMinus (q : ℚ) : Prop := q ≠ 0 ∧ |q| < 1 / 1000000

/-- `x.toString().includes('e')` for a finite JavaScript number:
exponential notation is used when `|x| ≥ 1e21` or `0 < |x| < 1e-6`. -/
abbrev jsToStringIncludesE (q : ℚ) : Prop :=
  (q ≠ 0 ∧ |q| < 1 / 1000000) ∨ 10 ^ 21 ≤ |q|

/-- A call to the swap provider (`web3Service.executeAISwap`). -/
structure SwapRequest where
  tokenIn : String
  tokenOut : String
  amountIn : ℤ
  slippage : ℚ
deriving DecidableEq, Repr

/-- The swap provider's result shape
`{ success, txHash?, outputAmount?, error? }`. -/
structure SwapResult where
  success : Bool
  txHash : Option String := none
  outputAmount : Option String := none
  error : Option String := none
deriving DecidableEq, Repr

/-- JavaScript truthiness of an optional string (`undefined` and the
empty string are falsy). -/
def truthyStr : Option String → Bool
  | none => false
  | some s => s != ""

/-- The trade record POSTed to `/api/trades` on provider success. -/
structure TradeRecord where
  tokenAId : ℕ
  tokenBId : ℕ
  amountA : ℚ
  amountB : String
  isAI : Bool
deriving DecidableEq, Repr

structure LogEntry where
  message : String
  type : String
deriving DecidableEq, Repr

/-- Observable effects of one `executeAutomatedDexTrade` call: provider
invocations in order, trade records created, log entries (interpolated
numeric text elided from the constant messages), the error thrown out of
the function if any, and the decision's amount after the minimum-floor
mutation. -/
structure ExecEffects where
  providerCalls : List SwapRequest := []
  recordedTrades : List TradeRecord := []
  logs : List LogEntry := []
  thrown : Option String := none
  executedAmount : Option ℚ := none
deriving DecidableEq, Repr

/-- `executeAutomatedDexTrade(decision)` translated from the source.
`userAddress` is the result of `web3Service.getAddress()` (`none` when
the wallet is not connected); `provider` abstracts
`web3Service.executeAISwap`.  The BUY branch floors the amount at 5
USDC, formats with `toFixed(USDC.decimals)` and calls the provider; the
SELL branch floors at 0.005 WBTC, then runs the scientific-notation /
`< 0.0001` guard, the `includes('e')` guard, the
`^[0-9]+(\.[0-9]+)?$` pattern check (a negative amount is the only way
`toFixed` output grows a non-matching leading sign), and calls the
provider.  A falsy `result.txHash` or `result.success` raises
`result.error || "Trade failed"`, which the surrounding catch logs and
rethrows.  Amounts at or above `1e21` make `toFixed` fall back to
exponential notation, so `parseUnits` rejects them. -/
def executeAutomatedDexTrade (userAddress : Option String)
    (provider : SwapRequest → SwapResult) (decision : Decision) : ExecEffects :=
  if decision.action = .HOLD then {}
  else
    match userAddress with
    | none => { thrown := some "Wallet not connected" }
    | some _ =>
      if decision.action = .BUY then
        let amount : ℚ := if decision.amount < 5 then 5 else decision.amount
        let floorLogs : List LogEntry :=
          if decision.amount < 5 then
            [⟨"Increasing buy amount to minimum threshold of 5 USDC", "info"⟩]
          else []
        if 10 ^ 21 ≤ amount then
          { logs := floorLogs ++
              [⟨"Error executing BUY trade: invalid decimal value", "error"⟩],
            thrown := some "invalid decimal value",
            executedAmount := some amount }
        else
          let req : SwapRequest :=
            ⟨USDC_ADDRESS, WBTC_ADDRESS, toFixedBase amount USDC_decimals,
             decision.suggestedSlippage⟩
          let result := provider req
          if result.success && truthyStr result.txHash then
            { providerCalls := [req],
              recordedTrades :=
                [⟨1, 2, amount, result.outputAmount.getD "0", true⟩],
              logs := floorLogs ++ [⟨"Trade executed", "success"⟩],
              executedAmount := some amount }
          else
            { providerCalls := [req],
              logs := floorLogs ++
                [⟨"Error executing BUY trade: " ++ result.error.getD "Trade failed",
                  "error"⟩],
              thrown := some (result.error.getD "Trade failed"),
              executedAmount := some amount }
      else
        let amount : ℚ := if decision.amount < 1 / 200 then 1 / 200 else decision.amount
        let floorLogs : List LogEntry :=
          if decision.amount < 1 / 200 then
            [⟨"Increasing sell amount to minimum threshold of 0.005 WBTC", "info"⟩]
          else []
        if jsToStringIncludesEMinus amount ∨ amount < 1 / 10000 then
          { logs := floorLogs ++
              [⟨"Trade amount too small, skipping execution", "error"⟩],
            thrown := some "Amount too small to execute trade safely",
            executedAmount := some amount }
        else if jsToStringIncludesE amount then
          { logs := floorLogs ++
              [⟨"Error executing SELL trade: Cannot safely process amount in scientific notation",
                "error"⟩],
            thrown := some "Cannot safely process amount in scientific notation",
            executedAmount := some amount }
        else if amount < 0 then
          { logs := floorLogs ++
              [⟨"Error executing SELL trade: Invalid amount format", "error"⟩],
            thrown := some "Invalid amount format",
            executedAmount := some amount }
        else
          let req : SwapRequest :=
            ⟨WBTC_ADDRESS, USDC_ADDRESS, toFixedBase amount WBTC_decimals,
             decision.suggestedSlippage⟩
          let result := provider req
          if result.success && truthyStr result.txHash then
            { providerCalls := [req],
              recordedTrades :=
                [⟨2, 1, amount, result.outputAmount.getD "0", true⟩],
              logs := floorLogs ++ [⟨"Trade executed", "success"⟩],
              executedAmount := some amount }
          else
            { providerCalls := [req],
              logs := floorLogs ++
                [⟨"Error executing SELL trade: " ++ result.error.getD "Trade failed",
                  "error"⟩],
              thrown := some (result.error.getD "Trade failed"),
              executedAmount := some amount }

/-- Split a character list on `'.'`. -/
def splitOnDot : List Char → List (List Char)
  | [] => [[]]
  | c :: rest =>
    match splitOnDot rest with
    | [] => []
    | h :: t => if c = '.' then [] :: h :: t else (c :: h) :: t

/-- Read a nonempty run of decimal digits as a natural number. -/
def digitsToNat? (cs : List Char) : Option ℕ :=
  if cs.isEmpty then none
  else
    cs.foldl
      (fun acc c =>
        match acc with
        | none => none
        | some n => if c.isDigit then some (n * 10 + (c.toNat - 48)) else none)
      (some 0)

/-- `ethers.utils.parseUnits` on a plain decimal string: `none` models
the throw when the string is malformed or the fractional component has
more digits than the declared `decimals`. -/
def parseUnitsStr (s : String) (decimals : ℕ) : Option ℤ :=
  match splitOnDot s.toList with
  | [w] => (digitsToNat? w).map fun n => (n : ℤ) * 10 ^ decimals
  | [w, f] =>
    if decimals < f.length then none
    else
      match digitsToNat? w, digitsToNat? f with
      | some wn, some fn =>
          some ((wn : ℤ) * 10 ^ decimals + (fn : ℤ) * 10 ^ (decimals - f.length))
      | _, _ => none
  | _ => none

/-- The test-mode guard threshold `ethers.utils.parseUnits("0.0001", 1)`
rejects its value: four fractional digits against one declared decimal. -/
theorem parseUnits_testGuard : parseUnitsStr "0.0001" 1 = none := by decide

/-- `web3Service.executeAISwap` translated from the source.  `aiSigner`
is the resolved AI-wallet signer for the user (`none` when unavailable);
`randomTxHash` stands for `hexlify(randomBytes(32))`.  In test mode the
whole simulated-swap block sits in one try/catch whose first step
evaluates `parseUnits("0.0001", 1)`; by `parseUnits_testGuard` that
throws, so the branch always returns the catch's failure result.  In
real mode no swap is performed: the function returns success with the
random hash and the placeholder output `"1.0"`. -/
def executeAISwap (aiSigner : Option String) (isTestMode : Bool)
    (tokenIn tokenOut : String) (amountIn : ℤ) (slippage : ℚ)
    (randomTxHash : String) : SwapResult :=
  match aiSigner with
  | none => { success := false, error := some "AI wallet not available" }
  | some _ =>
    if isTestMode then
      match parseUnitsStr "0.0001" 1 with
      | none => { success := false, error := some "Error in AI test swap" }
      | some threshold =>
        -- unreachable branch (the guard above always throws): the
        -- simulated swap applies 2% price impact; the token lookup and
        -- `formatUnits` decimal rendering are elided
        if amountIn = 0 ∨ amountIn < threshold then
          { success := false, error := some "Amount too small to process safely" }
        else
          { success := true, txHash := some randomTxHash,
            outputAmount := some (toString (amountIn * 98 / 100)) }
    else
      { success := true, txHash := some randomTxHash, outputAmount := some "1.0" }


/-! ## The decision cycle -/

/-- The market analysis returned by `analyzeMarketConditions`. -/
structure Analysis where
  action : TradeAction
  confidence : ℚ
  reasoning : List String
deriving DecidableEq, Repr

/-- `a.includes(b)` on strings (for the nonempty needles used here). -/
def jsIncludes (s needle : String) : Bool := (s.splitOn needle).length != 1

/-- Observable effects of one `updateAnalysis` cycle past the oracle
call: the error flag, the stored analysis, the pending decision slot,
and the automatic `executeAutomatedDexTrade` invocations. -/
structure CycleEffects where
  isError : Bool := false
  analysisSet : Option Analysis := none
  pendingDecision : Option Decision := none
  executorInvocations : List Decision := []
deriving DecidableEq, Repr

/-- The decision phase of `updateAnalysis`, translated from the source.
The oracle results (`newAnalysis` from `analyzeMarketConditions`,
`dexDecision` from `generateDexTradingDecision`) are external inputs.
A confidence-0 analysis whose first reasoning line mentions "API key"
enters the degraded error state (an empty reasoning list makes
`reasoning[0].includes` throw, which the outer catch also turns into the
error state).  Otherwise, with auto-trading on and allocated funds
positive, the decision is stored in the pending slot and executed
automatically exactly when its confidence exceeds 0.7. -/
def updateAnalysis (isAutoTrading : Bool) (allocatedFunds : ℚ)
    (newAnalysis : Analysis) (dexDecision : Decision) : CycleEffects :=
  if !isAutoTrading then {}
  else
    let apiKeyFailure : Bool :=
      decide (newAnalysis.confidence = 0) &&
        (match newAnalysis.reasoning.head? with
         | none => true
         | some r0 => jsIncludes r0 "API key")
    if apiKeyFailure then
      { isError := true }
    else
      { analysisSet := some newAnalysis,
        pendingDecision :=
          if isAutoTrading ∧ 0 < allocatedFunds then some dexDecision else none,
        executorInvocations :=
          if isAutoTrading ∧ 0 < allocatedFunds then
            (if 7 / 10 < dexDecision.confidence then [dexDecision] else [])
          else [] }

/-! ## The strategy registry -/

/-- A configured strategy; `riskLevel` is `none` when the record omits
it (the risk-reset effect then defaults it to "medium"). -/
structure Strategy where
  id : ℤ
  name : String
  riskLevel : Option String
  enabled : Bool
deriving DecidableEq, Repr

/-- The server-side effect of `PATCH /api/strategies/{id}` with body
`{enabled}`. -/
def patchStrategy (ss : List Strategy) (id : ℤ) (enabled : Bool) : List Strategy :=
  ss.map fun s => if s.id = id then { s with enabled := enabled } else s

/-- `toggleStrategy(id, enabled)` translated from the source: enabling
first walks the fetched strategy snapshot and disables every other
currently-enabled strategy (each such recursive call is a plain disable,
which does not cascade), then patches the selected strategy; disabling
is just the patch. -/
def toggleStrategy (ss : List Strategy) (id : ℤ) (enabled : Bool) : List Strategy :=
  match enabled with
  | true =>
    let disabled := ss.foldl
      (fun acc s => if s.id ≠ id ∧ s.enabled then patchStrategy acc s.id false else acc)
      ss
    patchStrategy disabled id true
  | false => patchStrategy ss id false

/-- The memecoin-bracket switch handler (checked case), translated from
the source: first disable every enabled strategy in the snapshot, then
find the "Memecoin Bracket Orders" strategy in the same snapshot and
toggle it on (the UI-local `isMemeStrategyEnabled` flag is elided). -/
def memeStrategySwitchOn (ss : List Strategy) : List Strategy :=
  let disabled := ss.foldl
    (fun acc s => if s.enabled then patchStrategy acc s.id false else acc) ss
  match ss.find? (fun s => s.name == "Memecoin Bracket Orders") with
  | some meme => toggleStrategy disabled meme.id true
  | none => disabled

/-- The `shouldBeVisible` test of the risk-level effect: the strategy's
risk level (defaulted to "medium") equals the session's selected level,
which must be one of the three known tiers. -/
def shouldBeVisible (riskLevel : String) (s : Strategy) : Bool :=
  (riskLevel == "low" && s.riskLevel.getD "medium" == "low") ||
  (riskLevel == "medium" && s.riskLevel.getD "medium" == "medium") ||
  (riskLevel == "high" && s.riskLevel.getD "medium" == "high")

/-- The risk-level `useEffect` translated from the source: walk the
strategy snapshot with a `foundEnabledStrategy` flag, disabling every
enabled strategy that is not visible at the new risk level, and every
visible enabled strategy after the first (the UI-local meme flag resets
are elided). -/
def riskLevelEffect (riskLevel : String) (ss : List Strategy) : List Strategy :=
  if 0 < ss.length then
    (ss.foldl
      (fun (st : List Strategy × Bool) s =>
        if !shouldBeVisible riskLevel s && s.enabled then
          (toggleStrategy st.1 s.id false, st.2)
        else if shouldBeVisible riskLevel s && s.enabled then
          (if st.2 then (toggleStrategy st.1 s.id false, st.2) else (st.1, true))
        else st)
      (ss, false)).1
  else ss

/-! ## Theorems -/

/-- The amount a decision actually executes with: the raw amount, raised
to the 5 USDC floor for BUY and the 0.005 WBTC floor for SELL. -/
def flooredAmount (d : Decision) : ℚ :=
  if d.action = .BUY then (if d.amount < 5 then 5 else d.amount)
  else (if d.amount < 1 / 200 then 1 / 200 else d.amount)

/-- C10: executing a HOLD decision is a no-op returning successfully
with no effect — no wallet-resolution failure (even with no wallet), no
amount adjustment, no provider call, no trade record, no log, no error. -/
theorem hold_decision_is_noop (userAddress : Option String)
    (provider : SwapRequest → SwapResult) (d : Decision)
    (h : d.action = .HOLD) :
    executeAutomatedDexTrade userAddress provider d = {} := by
  unfold executeAutomatedDexTrade
  simp [h]

theorem hold_decision_is_noop_witness :
    executeAutomatedDexTrade none (fun _ => { success := false })
      ⟨.HOLD, "USDC/WBTC", 3, 1, [], 1⟩ = {} :=
  hold_decision_is_noop none (fun _ => { success := false })
    ⟨.HOLD, "USDC/WBTC", 3, 1, [], 1⟩ rfl

/-- C7 (code bug): on a flat price series with `periods + 1 = 15`
samples the average loss is 0, the code computes `rs = 0 / 0 = NaN` and
returns `NaN` — not the safe numeric result (e.g. 100) the spec
requires. -/
theorem calculateRSI_flat_returns_nan :
    calculateRSI (List.replicate 15 100) 14 = JsNum.nan := by
  norm_num [calculateRSI, List.range_succ, List.replicate, jsDiv, jsAdd, jsSub]

/-- C3 (counterexample): a SELL decision for 0.00005 (< 0.0001) does
not fail with an amount-too-small error — the minimum-amount floor runs
first and raises it to 0.005, after which the guard cannot fire: the
swap provider is invoked, a trade is recorded, and nothing is thrown. -/
theorem precision_guard_counterexample :
    (executeAutomatedDexTrade (some "0xuser")
        (fun _ => { success := true, txHash := some "0xhash",
                    outputAmount := some "2.5" })
        ⟨.SELL, "WBTC/USDC", 1 / 20000, 9 / 10, [], 1⟩).providerCalls.length = 1 ∧
    (executeAutomatedDexTrade (some "0xuser")
        (fun _ => { success := true, txHash := some "0xhash",
                    outputAmount := some "2.5" })
        ⟨.SELL, "WBTC/USDC", 1 / 20000, 9 / 10, [], 1⟩).recordedTrades.length = 1 ∧
    (executeAutomatedDexTrade (some "0xuser")
        (fun _ => { success := true, txHash := some "0xhash",
                    outputAmount := some "2.5" })
        ⟨.SELL, "WBTC/USDC", 1 / 20000, 9 / 10, [], 1⟩).thrown = none := by
  norm_num +decide [executeAutomatedDexTrade, jsToStringIncludesEMinus,
    jsToStringIncludesE, truthyStr, abs]

/-- C2: a BUY below 5 executes with amount exactly 5 and a SELL below
0.005 executes with amount exactly 0.005 — the floored amount is what
reaches the provider request and any recorded trade — and the
adjustment leaves an explicit log entry. -/
theorem minimum_amount_floor (ua : String) (provider : SwapRequest → SwapResult)
    (d : Decision)
    (h : (d.action = .BUY ∧ d.amount < 5) ∨ (d.action = .SELL ∧ d.amount < 1 / 200)) :
    (executeAutomatedDexTrade (some ua) provider d).executedAmount
        = some (if d.action = .BUY then 5 else 1 / 200) ∧
    (∀ t ∈ (executeAutomatedDexTrade (some ua) provider d).recordedTrades,
        t.amountA = (if d.action = .BUY then 5 else 1 / 200)) ∧
    (⟨if d.action = .BUY then "Increasing buy amount to minimum threshold of 5 USDC"
      else "Increasing sell amount to minimum threshold of 0.005 WBTC", "info"⟩ : LogEntry)
      ∈ (executeAutomatedDexTrade (some ua) provider d).logs := by
  rcases h with ⟨hb, hlt⟩ | ⟨hs, hlt⟩
  · unfold executeAutomatedDexTrade
    rw [hb]
    norm_num +decide [hlt]
    split <;> simp
  · unfold executeAutomatedDexTrade
    rw [hs]
    norm_num +decide [hlt, jsToStringIncludesEMinus, jsToStringIncludesE, abs]
    split <;> simp

theorem minimum_amount_floor_witness :
    (executeAutomatedDexTrade (some "0xuser")
        (fun _ => { success := true, txHash := some "0xhash",
                    outputAmount := some "2.5" })
        ⟨.BUY, "USDC/WBTC", 3, 8 / 10, [], 1⟩).executedAmount = some 5 := by
  have h := minimum_amount_floor "0xuser"
    (fun _ => { success := true, txHash := some "0xhash", outputAmount := some "2.5" })
    ⟨.BUY, "USDC/WBTC", 3, 8 / 10, [], 1⟩ (Or.inl ⟨rfl, by norm_num⟩)
  simpa using h.1

/-- C3 (amended): an executed BUY or SELL decision with amount below
0.0001 is not rejected — the minimum-amount floor runs first, so the
amount is raised (to 5 for BUY, 0.005 for SELL), the swap provider is
invoked exactly once with the floored amount, and the only error that
can still be thrown is a provider-reported failure, never the
amount-too-small guard. -/
theorem small_amounts_are_floored_not_rejected (ua : String)
    (provider : SwapRequest → SwapResult) (d : Decision)
    (hna : d.action ≠ .HOLD) (hsmall : d.amount < 1 / 10000) :
    (executeAutomatedDexTrade (some ua) provider d).providerCalls.length = 1 ∧
    (executeAutomatedDexTrade (some ua) provider d).executedAmount
        = some (if d.action = .BUY then 5 else 1 / 200) ∧
    ((executeAutomatedDexTrade (some ua) provider d).thrown = none ∨
      ∃ req ∈ (executeAutomatedDexTrade (some ua) provider d).providerCalls,
        (executeAutomatedDexTrade (some ua) provider d).thrown
          = some (((provider req).error).getD "Trade failed")) := by
  cases hd : d.action with
  | HOLD => exact absurd hd hna
  | BUY =>
    have hlt : d.amount < 5 := lt_trans hsmall (by norm_num)
    unfold executeAutomatedDexTrade
    rw [hd]
    norm_num +decide [hlt]
    split
    · simp
    · exact ⟨rfl, rfl, Or.inr ⟨_, List.Mem.head _, rfl⟩⟩
  | SELL =>
    have hlt : d.amount < 1 / 200 := lt_trans hsmall (by norm_num)
    unfold executeAutomatedDexTrade
    rw [hd]
    norm_num +decide [hlt, jsToStringIncludesEMinus, jsToStringIncludesE, abs]
    split
    · simp
    · exact ⟨rfl, rfl, Or.inr ⟨_, List.Mem.head _, rfl⟩⟩

theorem small_amounts_are_floored_not_rejected_witness :
    (executeAutomatedDexTrade (some "0xuser")
        (fun _ => { success := true, txHash := some "0xhash",
                    outputAmount := some "2.5" })
        ⟨.SELL, "WBTC/USDC", 1 / 20000, 9 / 10, [], 1⟩).providerCalls.length = 1 := by
  have h := small_amounts_are_floored_not_rejected "0xuser"
    (fun _ => { success := true, txHash := some "0xhash", outputAmount := some "2.5" })
    ⟨.SELL, "WBTC/USDC", 1 / 20000, 9 / 10, [], 1⟩ (by decide) (by norm_num)
  exact h.1

/-- C4: for a non-HOLD decision (with a connected wallet and an amount
below the `toFixed` overflow bound), the provider is called exactly
once; a trade record is created iff that call reports success (the
actual provider always returns a transaction hash on success), with
`amountA` the requested (floored) input amount and `amountB` the
provider-reported output, defaulting to "0" exactly when the provider
omits it; on provider failure nothing is recorded. -/
theorem trade_recorded_iff_provider_success (ua : String)
    (provider : SwapRequest → SwapResult) (d : Decision)
    (hna : d.action ≠ .HOLD) (hbound : d.amount < 10 ^ 21)
    (htx : ∀ req, (provider req).success = true → truthyStr (provider req).txHash = true) :
    ∃ req, (executeAutomatedDexTrade (some ua) provider d).providerCalls = [req] ∧
      ((provider req).success = true →
        (executeAutomatedDexTrade (some ua) provider d).recordedTrades =
          [⟨if d.action = .BUY then 1 else 2, if d.action = .BUY then 2 else 1,
            flooredAmount d, ((provider req).outputAmount).getD "0", true⟩]) ∧
      ((provider req).success = false →
        (executeAutomatedDexTrade (some ua) provider d).recordedTrades = [] ∧
        (executeAutomatedDexTrade (some ua) provider d).thrown
          = some (((provider req).error).getD "Trade failed")) := by
  cases hd : d.action with
  | HOLD => exact absurd hd hna
  | BUY =>
    have hfl : flooredAmount d = if d.amount < 5 then 5 else d.amount := by
      unfold flooredAmount; rw [hd]; simp
    have hlt : (if d.amount < 5 then (5:ℚ) else d.amount) < 10 ^ 21 := by
      split
      · norm_num
      · exact hbound
    have hnle : ¬ ((10:ℚ) ^ 21 ≤ if d.amount < 5 then 5 else d.amount) :=
      not_le.2 hlt
    unfold executeAutomatedDexTrade
    rw [hd, hfl]
    simp only [show (TradeAction.BUY = TradeAction.HOLD) = False by simp,
      show (TradeAction.BUY = TradeAction.BUY) = True by simp,
      eq_false hnle, if_false, if_true]
    rcases hs : (provider ⟨USDC_ADDRESS, WBTC_ADDRESS,
        toFixedBase (if d.amount < 5 then 5 else d.amount) USDC_decimals,
        d.suggestedSlippage⟩).success with _ | _
    · simp only [Bool.false_and, show (false = true) = False by simp, if_false]
      refine ⟨⟨USDC_ADDRESS, WBTC_ADDRESS,
        toFixedBase (if d.amount < 5 then 5 else d.amount) USDC_decimals,
        d.suggestedSlippage⟩, rfl, ?_, ?_⟩
      · intro h; rw [hs] at h; simp at h
      · intro _; exact ⟨trivial, rfl⟩
    · have htx' := htx _ hs
      simp only [Bool.true_and, htx', show (true = true) = True by simp, if_true]
      refine ⟨⟨USDC_ADDRESS, WBTC_ADDRESS,
        toFixedBase (if d.amount < 5 then 5 else d.amount) USDC_decimals,
        d.suggestedSlippage⟩, rfl, ?_, ?_⟩
      · intro _; trivial
      · intro h; rw [hs] at h; simp at h
  | SELL =>
    have hfl : flooredAmount d = if d.amount < 1 / 200 then 1 / 200 else d.amount := by
      unfold flooredAmount; rw [hd]; simp
    have hge : (1:ℚ) / 200 ≤ (if d.amount < 1 / 200 then 1 / 200 else d.amount) := by
      split
      · norm_num
      · next h => exact le_of_not_lt (by simpa using h)
    have habs : |if d.amount < 1 / 200 then 1 / 200 else d.amount| =
        (if d.amount < 1 / 200 then 1 / 200 else d.amount) :=
      abs_of_pos (lt_of_lt_of_le (by norm_num) hge)
    have hlt : (if d.amount < 1 / 200 then (1:ℚ) / 200 else d.amount) < 10 ^ 21 := by
      split
      · norm_num
      · exact hbound
    have hne : ¬ jsToStringIncludesEMinus (if d.amount < 1 / 200 then 1 / 200 else d.amount) := by
      rintro ⟨-, h2⟩
      rw [habs] at h2
      exact absurd (lt_of_le_of_lt hge h2) (by norm_num)
    have hnE : ¬ jsToStringIncludesE (if d.amount < 1 / 200 then 1 / 200 else d.amount) := by
      rintro (⟨-, h2⟩ | h2)
      · rw [habs] at h2
        exact absurd (lt_of_le_of_lt hge h2) (by norm_num)
      · rw [habs] at h2
        exact absurd (lt_of_le_of_lt h2 hlt) (lt_irrefl _)
    have hnn : ¬ (if d.amount < 1 / 200 then (1:ℚ) / 200 else d.amount) < 0 :=
      not_lt.2 (le_trans (by norm_num) hge)
    have hns : ¬ (if d.amount < 1 / 200 then (1:ℚ) / 200 else d.amount) < 1 / 10000 :=
      not_lt.2 (le_trans (by norm_num) hge)
    unfold executeAutomatedDexTrade
    rw [hd, hfl]
    simp only [show (TradeAction.SELL = TradeAction.HOLD) = False by simp,
      show (TradeAction.SELL = TradeAction.BUY) = False by simp,
      eq_false hne, eq_false hnE, eq_false hnn, eq_false hns,
      false_or, if_false]
    rcases hs : (provider ⟨WBTC_ADDRESS, USDC_ADDRESS,
        toFixedBase (if d.amount < 1 / 200 then 1 / 200 else d.amount) WBTC_decimals,
        d.suggestedSlippage⟩).success with _ | _
    · simp only [Bool.false_and, show (false = true) = False by simp, if_false]
      refine ⟨⟨WBTC_ADDRESS, USDC_ADDRESS,
        toFixedBase (if d.amount < 1 / 200 then 1 / 200 else d.amount) WBTC_decimals,
        d.suggestedSlippage⟩, rfl, ?_, ?_⟩
      · intro h; rw [hs] at h; simp at h
      · intro _; exact ⟨trivial, rfl⟩
    · have htx' := htx _ hs
      simp only [Bool.true_and, htx', show (true = true) = True by simp, if_true]
      refine ⟨⟨WBTC_ADDRESS, USDC_ADDRESS,
        toFixedBase (if d.amount < 1 / 200 then 1 / 200 else d.amount) WBTC_decimals,
        d.suggestedSlippage⟩, rfl, ?_, ?_⟩
      · intro _; trivial
      · intro h; rw [hs] at h; simp at h

theorem trade_recorded_iff_provider_success_witness :
    (executeAutomatedDexTrade (some "0xme")
        (fun _ => { success := true, txHash := some "0xh",
                    outputAmount := some "9.9" })
        ⟨.BUY, "USDC/WBTC", 3, 8 / 10, [], 1⟩).recordedTrades =
      [⟨1, 2, 5, "9.9", true⟩] := by
  obtain ⟨req, hcalls, hsucc, hfail⟩ := trade_recorded_iff_provider_success "0xme"
    (fun _ => { success := true, txHash := some "0xh", outputAmount := some "9.9" })
    ⟨.BUY, "USDC/WBTC", 3, 8 / 10, [], 1⟩ (by decide) (by norm_num)
    (fun _ _ => rfl)
  have h := hsucc rfl
  rw [h]
  norm_num +decide [flooredAmount]

/-- C6: with a resolvable AI-wallet signer and test mode off,
`executeAISwap` performs no swap at all: it returns success with the
freshly generated random transaction hash and the constant placeholder
output `"1.0"`, whatever the tokens, amount and slippage were — and
consequently every trade the executor records through this provider in
real mode has `amountB = "1.0"`. -/
theorem real_mode_swap_is_placeholder (s hash ua : String) (tin tout : String)
    (amt : ℤ) (slip : ℚ) (hhash : hash ≠ "") :
    executeAISwap (some s) false tin tout amt slip hash
      = { success := true, txHash := some hash, outputAmount := some "1.0" } ∧
    ∀ d : Decision, ∀ t ∈ (executeAutomatedDexTrade (some ua)
        (fun req => executeAISwap (some s) false req.tokenIn req.tokenOut
          req.amountIn req.slippage hash) d).recordedTrades,
      t.amountB = "1.0" := by
  constructor
  · rfl
  · intro d t ht
    have htr : truthyStr (some hash) = true := by simp [truthyStr, hhash]
    cases hd : d.action with
    | HOLD =>
      unfold executeAutomatedDexTrade at ht
      rw [hd] at ht
      simp at ht
    | BUY =>
      unfold executeAutomatedDexTrade at ht
      rw [hd] at ht
      simp only [show (TradeAction.BUY = TradeAction.HOLD) = False by simp,
        show (TradeAction.BUY = TradeAction.BUY) = True by simp,
        if_false, if_true, executeAISwap, htr, Bool.true_and,
        show (false = true) = False by simp,
        show (true = true) = True by simp] at ht
      split at ht
      all_goals
        split at ht
        · simp at ht
        · simp only [List.mem_singleton] at ht; subst ht; rfl
    | SELL =>
      unfold executeAutomatedDexTrade at ht
      rw [hd] at ht
      simp only [show (TradeAction.SELL = TradeAction.HOLD) = False by simp,
        show (TradeAction.SELL = TradeAction.BUY) = False by simp,
        if_false, if_true, executeAISwap, htr, Bool.true_and,
        show (false = true) = False by simp,
        show (true = true) = True by simp] at ht
      split at ht
      all_goals
        split at ht
        · simp at ht
        · split at ht
          · simp at ht
          · split at ht
            · simp at ht
            · simp only [List.mem_singleton] at ht; subst ht; rfl

theorem real_mode_swap_is_placeholder_witness :
    executeAISwap (some "0xai") false "T1" "T2" 5000000000000000000 1 "0xhash"
      = { success := true, txHash := some "0xhash", outputAmount := some "1.0" } :=
  (real_mode_swap_is_placeholder "0xai" "0xhash" "0xme" "T1" "T2"
    5000000000000000000 1 (by decide)).1

/-- C1: in every decision cycle that actually produces a Decision (the
pending slot ends up filled), the executor is invoked automatically
exactly once when `confidence > 0.7`, never when `confidence ≤ 0.7`,
and the decision is stored in the pending slot awaiting manual
confirmation. -/
theorem confidence_gating (auto : Bool) (funds : ℚ) (an : Analysis) (d : Decision)
    (hprod : (updateAnalysis auto funds an d).pendingDecision.isSome = true) :
    (7 / 10 < d.confidence →
      (updateAnalysis auto funds an d).executorInvocations = [d]) ∧
    (d.confidence ≤ 7 / 10 →
      (updateAnalysis auto funds an d).executorInvocations = []) ∧
    (updateAnalysis auto funds an d).pendingDecision = some d := by
  cases auto with
  | false => simp [updateAnalysis] at hprod
  | true =>
    unfold updateAnalysis at hprod ⊢
    simp only [Bool.not_true, show (false = true) = False by simp, if_false] at hprod ⊢
    split at hprod
    · simp at hprod
    · rename_i hk
      simp only at hprod
      split at hprod
      · rename_i hC
        simp only [Bool.and_eq_true, decide_eq_true_eq] at hk
        refine ⟨fun h => ?_, fun h => ?_, ?_⟩
        · simp [hk, hC, h]
        · simp [hk, hC, not_lt.2 h]
        · simp [hk, hC]
      · simp at hprod

theorem confidence_gating_witness :
    (updateAnalysis true 1000 ⟨.BUY, 9 / 10, ["ok"]⟩
        ⟨.BUY, "USDC/WBTC", 100, 9 / 10, [], 1⟩).executorInvocations
      = [⟨.BUY, "USDC/WBTC", 100, 9 / 10, [], 1⟩] := by
  have hc : (((9:ℚ) / 10) = 0) = False := by norm_num
  exact (confidence_gating true 1000 ⟨.BUY, 9 / 10, ["ok"]⟩
    ⟨.BUY, "USDC/WBTC", 100, 9 / 10, [], 1⟩
    (by norm_num +decide [updateAnalysis, hc])).1 (by norm_num)

/-- Clearing a strategy's enabled flag. -/
def disableStrategy (t : Strategy) : Strategy := { t with enabled := false }

theorem disableStrategy_id (t : Strategy) : (disableStrategy t).id = t.id := rfl

theorem disableStrategy_enabled (t : Strategy) :
    (disableStrategy t).enabled = false := rfl

/-- The disable-cascade fold of `toggleStrategy` (and of the memecoin
switch handler): walking the snapshot and patching every strategy
satisfying `P` to disabled is the same as a single map that disables
every strategy whose id coincides with some snapshot member satisfying
`P`. -/
theorem foldl_disable_eq_map (P : Strategy → Prop) [DecidablePred P]
    (ss acc : List Strategy) :
    ss.foldl (fun acc s => if P s then patchStrategy acc s.id false else acc) acc
      = acc.map (fun t => if ∃ s ∈ ss, P s ∧ s.id = t.id then disableStrategy t else t) := by
  induction ss generalizing acc with
  | nil => simp
  | cons a ss ih =>
    rw [List.foldl_cons]
    by_cases hPa : P a
    · rw [if_pos hPa, ih]
      show (patchStrategy acc a.id false).map _ = _
      rw [show patchStrategy acc a.id false
            = acc.map (fun t => if t.id = a.id then disableStrategy t else t) from rfl,
        List.map_map]
      refine congrFun (congrArg List.map (funext fun t => ?_)) acc
      by_cases hta : t.id = a.id
      · have hex : ∃ s ∈ a :: ss, P s ∧ s.id = t.id :=
          ⟨a, List.mem_cons_self a ss, hPa, hta.symm⟩
        simp only [Function.comp_apply, if_pos hta, if_pos hex, disableStrategy_id]
        split <;> rfl
      · have hiff : (∃ s ∈ a :: ss, P s ∧ s.id = t.id) ↔ ∃ s ∈ ss, P s ∧ s.id = t.id := by
          constructor
          · rintro ⟨s, hs, hP, hid⟩
            rcases List.mem_cons.1 hs with rfl | hs'
            · exact absurd hid.symm hta
            · exact ⟨s, hs', hP, hid⟩
          · rintro ⟨s, hs, h⟩
            exact ⟨s, List.mem_cons_of_mem _ hs, h⟩
        simp only [Function.comp_apply, if_neg hta]
        rw [if_congr hiff rfl rfl]
    · rw [if_neg hPa, ih]
      refine congrFun (congrArg List.map (funext fun t => ?_)) acc
      have hiff : (∃ s ∈ a :: ss, P s ∧ s.id = t.id) ↔ ∃ s ∈ ss, P s ∧ s.id = t.id := by
        constructor
        · rintro ⟨s, hs, hP, hid⟩
          rcases List.mem_cons.1 hs with rfl | hs'
          · exact absurd hP hPa
          · exact ⟨s, hs', hP, hid⟩
        · rintro ⟨s, hs, h⟩
          exact ⟨s, List.mem_cons_of_mem _ hs, h⟩
      rw [if_congr hiff rfl rfl]

/-- The per-element effect of `toggleStrategy ss X true` on a snapshot
member `t`: first disabled if some other enabled strategy shares its id,
then enabled if its id is the selected one. -/
def enableImage (ss : List Strategy) (X : ℤ) (t : Strategy) : Strategy :=
  let t1 := if ∃ s ∈ ss, (s.id ≠ X ∧ s.enabled = true) ∧ s.id = t.id
            then disableStrategy t else t
  if t1.id = X then { t1 with enabled := true } else t1

theorem toggle_true_eq_map (ss : List Strategy) (X : ℤ) :
    toggleStrategy ss X true = ss.map (enableImage ss X) := by
  show patchStrategy
      (ss.foldl (fun acc s =>
        if s.id ≠ X ∧ s.enabled = true then patchStrategy acc s.id false else acc) ss)
      X true = _
  rw [foldl_disable_eq_map (fun s => s.id ≠ X ∧ s.enabled = true)]
  show List.map _ (List.map _ ss) = _
  rw [List.map_map]
  rfl

theorem enableImage_id (ss : List Strategy) (X : ℤ) (t : Strategy) :
    (enableImage ss X t).id = t.id := by
  unfold enableImage
  by_cases h : ∃ s ∈ ss, (s.id ≠ X ∧ s.enabled = true) ∧ s.id = t.id
  · simp only [if_pos h]
    split <;> rfl
  · simp only [if_neg h]
    split <;> rfl

theorem enableImage_enabled (ss : List Strategy) (X : ℤ) (t : Strategy)
    (hnd : (ss.map Strategy.id).Nodup) (ht : t ∈ ss) :
    ((enableImage ss X t).enabled = true) ↔ t.id = X := by
  unfold enableImage
  by_cases hta : t.id = X
  · have hex : ¬ ∃ s ∈ ss, (s.id ≠ X ∧ s.enabled = true) ∧ s.id = t.id := by
      rintro ⟨s, _, ⟨hne, _⟩, hid⟩
      exact hne (hid.trans hta)
    simp only [if_neg hex, if_pos hta]
    exact iff_of_true trivial hta
  · by_cases hen : t.enabled = true
    · have hex : ∃ s ∈ ss, (s.id ≠ X ∧ s.enabled = true) ∧ s.id = t.id :=
        ⟨t, ht, ⟨hta, hen⟩, rfl⟩
      have hta' : ¬ (disableStrategy t).id = X := by
        rw [disableStrategy_id]; exact hta
      simp only [if_pos hex, if_neg hta']
      exact iff_of_false (by simp [disableStrategy]) hta
    · have hex : ¬ ∃ s ∈ ss, (s.id ≠ X ∧ s.enabled = true) ∧ s.id = t.id := by
        rintro ⟨s, hs, ⟨_, hsen⟩, hid⟩
        exact hen ((List.inj_on_of_nodup_map hnd hs ht hid) ▸ hsen)
      simp only [if_neg hex, if_neg hta]
      exact iff_of_false hen hta

/-- C5: single-active-strategy exclusivity.  Enabling strategy `X`
(present in a registry with distinct ids) leaves exactly one enabled
strategy, namely `X`, whatever was enabled before, because the toggle
first disables every other enabled strategy; disabling is a single
patch that never cascades; and the memecoin-bracket switch handler
likewise leaves exactly the memecoin strategy enabled. -/
theorem strategy_exclusivity (ss : List Strategy) (X : ℤ)
    (hnd : (ss.map Strategy.id).Nodup) (hX : X ∈ ss.map Strategy.id) :
    (∀ u ∈ toggleStrategy ss X true, (u.enabled = true ↔ u.id = X)) ∧
    ((toggleStrategy ss X true).filter (fun s => s.enabled)).length = 1 ∧
    toggleStrategy ss X false = patchStrategy ss X false ∧
    (∀ m, ss.find? (fun s => s.name == "Memecoin Bracket Orders") = some m →
      ∀ u ∈ memeStrategySwitchOn ss, (u.enabled = true ↔ u.id = m.id)) := by
  refine ⟨?_, ?_, rfl, ?_⟩
  · intro u hu
    rw [toggle_true_eq_map] at hu
    obtain ⟨t, ht, rfl⟩ := List.mem_map.1 hu
    rw [enableImage_id]
    exact enableImage_enabled ss X t hnd ht
  · rw [toggle_true_eq_map, ← List.countP_eq_length_filter, List.countP_map]
    have hcongr : ∀ t ∈ ss,
        (((fun s => s.enabled) ∘ enableImage ss X) t = true ↔ (t.id == X) = true) := by
      intro t ht
      rw [Function.comp_apply, beq_iff_eq]
      exact enableImage_enabled ss X t hnd ht
    rw [List.countP_congr hcongr]
    have hc : ss.countP (fun t => t.id == X) = (ss.map Strategy.id).count X := by
      rw [List.count_eq_countP, List.countP_map]
      rfl
    rw [hc]
    exact List.count_eq_one_of_mem hnd hX
  · intro m hm u hu
    set dl := ss.map (fun t =>
      if ∃ s ∈ ss, s.enabled = true ∧ s.id = t.id then disableStrategy t else t) with hdldef
    have hdl : memeStrategySwitchOn ss = toggleStrategy dl m.id true := by
      unfold memeStrategySwitchOn
      rw [hm, foldl_disable_eq_map (fun s => s.enabled = true)]
    have hdis : ∀ v ∈ dl, v.enabled = false := by
      intro v hv
      rw [hdldef] at hv
      obtain ⟨t, ht, rfl⟩ := List.mem_map.1 hv
      by_cases hten : t.enabled = true
      · rw [if_pos ⟨t, ht, hten, rfl⟩]; rfl
      · split
        · rfl
        · exact Bool.eq_false_iff.mpr hten
    rw [hdl, toggle_true_eq_map] at hu
    obtain ⟨t', ht', rfl⟩ := List.mem_map.1 hu
    rw [enableImage_id]
    have hex : ¬ ∃ s ∈ dl, (s.id ≠ m.id ∧ s.enabled = true) ∧ s.id = t'.id := by
      rintro ⟨s, hs, ⟨-, hsen⟩, -⟩
      rw [hdis s hs] at hsen
      exact Bool.false_ne_true hsen
    unfold enableImage
    simp only [if_neg hex]
    by_cases h : t'.id = m.id
    · simp only [if_pos h]
      exact iff_of_true trivial h
    · simp only [if_neg h]
      exact iff_of_false (by rw [hdis t' ht']; simp) h

theorem strategy_exclusivity_witness :
    ((toggleStrategy [⟨1, "Grid Trading", some "low", true⟩,
        ⟨2, "Momentum", some "low", false⟩] 2 true).filter
      (fun s => s.enabled)).length = 1 :=
  (strategy_exclusivity [⟨1, "Grid Trading", some "low", true⟩,
      ⟨2, "Momentum", some "low", false⟩] 2
    (by decide) (by decide)).2.1

theorem contains_iff_mem_int (k : List ℤ) (a : ℤ) : k.contains a = true ↔ a ∈ k := by
  simp

theorem disableStrategy_idem (t : Strategy) :
    disableStrategy (disableStrategy t) = disableStrategy t := rfl

/-- The ids the risk-level effect disables while walking the snapshot
with a `foundEnabledStrategy` flag: every enabled-but-invisible
strategy, and every enabled visible strategy after the first. -/
def killIds (rl : String) : List Strategy → Bool → List ℤ
  | [], _ => []
  | s :: rest, found =>
    if !shouldBeVisible rl s && s.enabled then s.id :: killIds rl rest found
    else if shouldBeVisible rl s && s.enabled then
      (if found then s.id :: killIds rl rest true else killIds rl rest true)
    else killIds rl rest found

theorem patch_then_kill (acc : List Strategy) (sid : ℤ) (k : List ℤ) :
    (patchStrategy acc sid false).map
      (fun t => if k.contains t.id then disableStrategy t else t)
    = acc.map (fun t => if (sid :: k).contains t.id then disableStrategy t else t) := by
  rw [show patchStrategy acc sid false
        = acc.map (fun t => if t.id = sid then disableStrategy t else t) from rfl,
    List.map_map]
  refine congrFun (congrArg List.map (funext fun t => ?_)) acc
  by_cases hts : t.id = sid
  · have hc : ((sid :: k).contains t.id) = true :=
      (contains_iff_mem_int _ _).mpr (by rw [hts]; exact List.mem_cons_self _ _)
    simp only [Function.comp_apply, if_pos hts, disableStrategy_id, hc,
      show (true = true) = True by simp, if_true]
    split <;> rfl
  · have hc : ((sid :: k).contains t.id) = (k.contains t.id) := by
      rcases hk : k.contains t.id with _ | _
      · rw [Bool.eq_false_iff]
        intro hmem
        rcases List.mem_cons.1 ((contains_iff_mem_int _ _).mp hmem) with h | h
        · exact hts h
        · have hcm := (contains_iff_mem_int k t.id).mpr h
          rw [hk] at hcm
          exact Bool.false_ne_true hcm
      · exact (contains_iff_mem_int _ _).mpr
          (List.mem_cons_of_mem _ ((contains_iff_mem_int _ _).mp hk))
    simp only [Function.comp_apply, if_neg hts, hc]

/-- The risk-level effect's fold, characterized: its resulting server
state is the accumulator with exactly the `killIds` strategies
disabled. -/
theorem riskFold (rl : String) (rest : List Strategy) :
    ∀ (acc : List Strategy) (found : Bool),
    (rest.foldl
      (fun (st : List Strategy × Bool) s =>
        if !shouldBeVisible rl s && s.enabled then
          (toggleStrategy st.1 s.id false, st.2)
        else if shouldBeVisible rl s && s.enabled then
          (if st.2 then (toggleStrategy st.1 s.id false, st.2) else (st.1, true))
        else st)
      (acc, found)).1
    = acc.map (fun t =>
        if (killIds rl rest found).contains t.id then disableStrategy t else t) := by
  induction rest with
  | nil =>
    intro acc found
    simp [killIds]
  | cons s rest ih =>
    intro acc found
    rw [List.foldl_cons]
    by_cases h1 : (!shouldBeVisible rl s && s.enabled) = true
    · simp only [if_pos h1, killIds]
      rw [show toggleStrategy acc s.id false = patchStrategy acc s.id false from rfl]
      rw [ih (patchStrategy acc s.id false) found]
      exact patch_then_kill acc s.id (killIds rl rest found)
    · by_cases h2 : (shouldBeVisible rl s && s.enabled) = true
      · by_cases h3 : found = true
        · simp only [if_neg h1, if_pos h2, h3, killIds, if_true,
            show (true = true) = True by simp]
          rw [show toggleStrategy acc s.id false = patchStrategy acc s.id false from rfl]
          rw [ih (patchStrategy acc s.id false) true]
          exact patch_then_kill acc s.id (killIds rl rest true)
        · have h3' : found = false := Bool.eq_false_iff.mpr h3
          simp only [if_neg h1, if_pos h2, h3', killIds,
            show (false = true) = False by simp, if_false]
          exact ih acc true
      · simp only [if_neg h1, if_neg h2, killIds]
        exact ih acc found

theorem and_true_parts {a b : Bool} (h : (a && b) = true) : a = true ∧ b = true := by
  simp only [Bool.and_eq_true] at h
  exact h

theorem killIds_cons_invisible {rl : String} {s : Strategy} {rest : List Strategy}
    {found : Bool} (h1 : (!shouldBeVisible rl s && s.enabled) = true) :
    killIds rl (s :: rest) found = s.id :: killIds rl rest found := by
  simp only [killIds, if_pos h1]

theorem killIds_cons_visible_found {rl : String} {s : Strategy} {rest : List Strategy}
    (h1 : ¬ (!shouldBeVisible rl s && s.enabled) = true)
    (h2 : (shouldBeVisible rl s && s.enabled) = true) :
    killIds rl (s :: rest) true = s.id :: killIds rl rest true := by
  simp only [killIds, if_neg h1, if_pos h2, show (true = true) = True by simp, if_true]

theorem killIds_cons_visible_notfound {rl : String} {s : Strategy} {rest : List Strategy}
    (h1 : ¬ (!shouldBeVisible rl s && s.enabled) = true)
    (h2 : (shouldBeVisible rl s && s.enabled) = true) :
    killIds rl (s :: rest) false = killIds rl rest true := by
  simp only [killIds, if_neg h1, if_pos h2, show (false = true) = False by simp, if_false]

theorem killIds_cons_skip {rl : String} {s : Strategy} {rest : List Strategy}
    {found : Bool} (h1 : ¬ (!shouldBeVisible rl s && s.enabled) = true)
    (h2 : ¬ (shouldBeVisible rl s && s.enabled) = true) :
    killIds rl (s :: rest) found = killIds rl rest found := by
  simp only [killIds, if_neg h1, if_neg h2]

/-- Every killed id belongs to an enabled snapshot member. -/
theorem killIds_subset (rl : String) (l : List Strategy) :
    ∀ (found : Bool) (i : ℤ), i ∈ killIds rl l found →
      ∃ s ∈ l, s.id = i ∧ s.enabled = true := by
  induction l with
  | nil => intro found i h; simp [killIds] at h
  | cons s rest ih =>
    intro found i h
    by_cases h1 : (!shouldBeVisible rl s && s.enabled) = true
    · rw [killIds_cons_invisible h1] at h
      rcases List.mem_cons.1 h with rfl | h'
      · exact ⟨s, List.mem_cons_self _ _, rfl, (and_true_parts h1).2⟩
      · obtain ⟨t, ht, hti, hte⟩ := ih found i h'
        exact ⟨t, List.mem_cons_of_mem _ ht, hti, hte⟩
    · by_cases h2 : (shouldBeVisible rl s && s.enabled) = true
      · cases found with
        | true =>
          rw [killIds_cons_visible_found h1 h2] at h
          rcases List.mem_cons.1 h with rfl | h'
          · exact ⟨s, List.mem_cons_self _ _, rfl, (and_true_parts h2).2⟩
          · obtain ⟨t, ht, hti, hte⟩ := ih true i h'
            exact ⟨t, List.mem_cons_of_mem _ ht, hti, hte⟩
        | false =>
          rw [killIds_cons_visible_notfound h1 h2] at h
          obtain ⟨t, ht, hti, hte⟩ := ih true i h
          exact ⟨t, List.mem_cons_of_mem _ ht, hti, hte⟩
      · rw [killIds_cons_skip h1 h2] at h
        obtain ⟨t, ht, hti, hte⟩ := ih found i h
        exact ⟨t, List.mem_cons_of_mem _ ht, hti, hte⟩

/-- An enabled snapshot member invisible at the current risk level is
always killed, whatever the flag. -/
theorem killIds_mem_invisible (rl : String) (l : List Strategy) :
    ∀ (found : Bool) (t : Strategy), t ∈ l → t.enabled = true →
      shouldBeVisible rl t = false → t.id ∈ killIds rl l found := by
  induction l with
  | nil => intro found t ht; simp at ht
  | cons s rest ih =>
    intro found t ht hen hvis
    rcases List.mem_cons.1 ht with rfl | ht'
    · have h1 : (!shouldBeVisible rl t && t.enabled) = true := by rw [hvis, hen]; rfl
      rw [killIds_cons_invisible h1]
      exact List.mem_cons_self _ _
    · by_cases h1 : (!shouldBeVisible rl s && s.enabled) = true
      · rw [killIds_cons_invisible h1]
        exact List.mem_cons_of_mem _ (ih found t ht' hen hvis)
      · by_cases h2 : (shouldBeVisible rl s && s.enabled) = true
        · cases found with
          | false =>
            rw [killIds_cons_visible_notfound h1 h2]
            exact ih true t ht' hen hvis
          | true =>
            rw [killIds_cons_visible_found h1 h2]
            exact List.mem_cons_of_mem _ (ih true t ht' hen hvis)
        · rw [killIds_cons_skip h1 h2]
          exact ih found t ht' hen hvis

/-- Once the first-enabled flag is set, every enabled member is killed. -/
theorem killIds_mem_found (rl : String) (l : List Strategy) :
    ∀ t : Strategy, t ∈ l → t.enabled = true → t.id ∈ killIds rl l true := by
  induction l with
  | nil => intro t ht; simp at ht
  | cons s rest ih =>
    intro t ht hen
    rcases List.mem_cons.1 ht with rfl | ht'
    · by_cases hv : shouldBeVisible rl t = true
      · have h2 : (shouldBeVisible rl t && t.enabled) = true := by rw [hv, hen]; rfl
        by_cases h1 : (!shouldBeVisible rl t && t.enabled) = true
        · rw [killIds_cons_invisible h1]; exact List.mem_cons_self _ _
        · rw [killIds_cons_visible_found h1 h2]; exact List.mem_cons_self _ _
      · have hv' : shouldBeVisible rl t = false := Bool.eq_false_iff.mpr hv
        have h1 : (!shouldBeVisible rl t && t.enabled) = true := by rw [hv', hen]; rfl
        rw [killIds_cons_invisible h1]
        exact List.mem_cons_self _ _
    · by_cases h1 : (!shouldBeVisible rl s && s.enabled) = true
      · rw [killIds_cons_invisible h1]
        exact List.mem_cons_of_mem _ (ih t ht' hen)
      · by_cases h2 : (shouldBeVisible rl s && s.enabled) = true
        · rw [killIds_cons_visible_found h1 h2]
          exact List.mem_cons_of_mem _ (ih t ht' hen)
        · rw [killIds_cons_skip h1 h2]
          exact ih t ht' hen

theorem killIds_append (rl : String) (l1 l2 : List Strategy) :
    ∀ found : Bool,
      killIds rl (l1 ++ l2) found
        = killIds rl l1 found
          ++ killIds rl l2
              (found || l1.any (fun s => shouldBeVisible rl s && s.enabled)) := by
  induction l1 with
  | nil => intro found; simp [killIds]
  | cons s l1 ih =>
    intro found
    rw [List.cons_append]
    by_cases h1 : (!shouldBeVisible rl s && s.enabled) = true
    · have hsf : (shouldBeVisible rl s && s.enabled) = false := by
        have hv := (and_true_parts h1).1
        have hv' : shouldBeVisible rl s = false := by
          rcases hvv : shouldBeVisible rl s with _ | _
          · rfl
          · rw [hvv] at hv; simp at hv
        rw [hv', Bool.false_and]
      rw [killIds_cons_invisible h1, killIds_cons_invisible h1, ih found,
        List.cons_append, List.any_cons, hsf, Bool.false_or]
    · by_cases h2 : (shouldBeVisible rl s && s.enabled) = true
      · cases found with
        | false =>
          rw [killIds_cons_visible_notfound h1 h2, ih true,
            killIds_cons_visible_notfound h1 h2]
          simp only [List.any_cons, h2, Bool.true_or, Bool.false_or]
        | true =>
          rw [killIds_cons_visible_found h1 h2, killIds_cons_visible_found h1 h2,
            ih true, List.cons_append]
          simp only [List.any_cons, h2, Bool.true_or]
      · have hsf : (shouldBeVisible rl s && s.enabled) = false :=
          Bool.eq_false_iff.mpr h2
        rw [killIds_cons_skip h1 h2, killIds_cons_skip h1 h2, ih found,
          List.any_cons, hsf, Bool.false_or]

/-- C9: after a risk-tier change, every enabled strategy not matching
the new tier is disabled, and among matching enabled strategies only the
first in list order survives: if no enabled strategy matches, everything
ends up disabled; if `f` is the first matching enabled strategy (the
`find?` witness), exactly the strategies with `f`'s id stay enabled; in
all cases at most one strategy is left enabled. -/
theorem risk_level_reset (rl : String) (ss : List Strategy)
    (hnd : (ss.map Strategy.id).Nodup) :
    (ss.find? (fun s => shouldBeVisible rl s && s.enabled) = none →
      ∀ u ∈ riskLevelEffect rl ss, u.enabled = false) ∧
    (∀ f, ss.find? (fun s => shouldBeVisible rl s && s.enabled) = some f →
      ∀ u ∈ riskLevelEffect rl ss, (u.enabled = true ↔ u.id = f.id)) ∧
    ((riskLevelEffect rl ss).filter (fun s => s.enabled)).length ≤ 1 := by
  have hre : riskLevelEffect rl ss
      = ss.map (fun t =>
          if (killIds rl ss false).contains t.id then disableStrategy t else t) := by
    unfold riskLevelEffect
    split
    · exact riskFold rl ss ss false
    · next h =>
      have h0 : ss = [] := List.eq_nil_of_length_eq_zero (Nat.eq_zero_of_not_pos h)
      rw [h0]
      rfl
  have hkid : ∀ t : Strategy,
      ((if (killIds rl ss false).contains t.id then disableStrategy t else t) : Strategy).id
        = t.id := by
    intro t
    split
    · exact disableStrategy_id t
    · rfl
  have hnone : ss.find? (fun s => shouldBeVisible rl s && s.enabled) = none →
      ∀ u ∈ riskLevelEffect rl ss, u.enabled = false := by
    intro hn u hu
    rw [hre] at hu
    obtain ⟨t, ht, rfl⟩ := List.mem_map.1 hu
    by_cases hc : (killIds rl ss false).contains t.id = true
    · rw [if_pos hc]
      rfl
    · rw [if_neg hc]
      by_cases hen : t.enabled = true
      · exfalso
        have hnv := List.find?_eq_none.mp hn t ht
        have hvis : shouldBeVisible rl t = false := by
          rcases hv : shouldBeVisible rl t with _ | _
          · rfl
          · exact absurd (show (shouldBeVisible rl t && t.enabled) = true by
              rw [hv, hen]; rfl) hnv
        exact hc ((contains_iff_mem_int _ _).mpr
          (killIds_mem_invisible rl ss false t ht hen hvis))
      · exact Bool.eq_false_iff.mpr hen
  have hsome : ∀ f, ss.find? (fun s => shouldBeVisible rl s && s.enabled) = some f →
      ∀ u ∈ riskLevelEffect rl ss, (u.enabled = true ↔ u.id = f.id) := by
    intro f hf u hu
    obtain ⟨hpf, l1, l2, hsplit, hl1⟩ := List.find?_eq_some.mp hf
    have hfen : f.enabled = true := (and_true_parts hpf).2
    have hany : l1.any (fun s => shouldBeVisible rl s && s.enabled) = false := by
      rw [List.any_eq_false]
      intro x hx
      have hx' := hl1 x hx
      simp only [Bool.not_eq_eq_eq_not, Bool.not_true] at hx'
      rw [hx']
      exact Bool.false_ne_true
    have hkill : killIds rl ss false = killIds rl l1 false ++ killIds rl l2 true := by
      rw [hsplit, killIds_append, hany, Bool.or_false]
      congr 1
      by_cases h1 : (!shouldBeVisible rl f && f.enabled) = true
      · exfalso
        have hv := (and_true_parts h1).1
        have hv2 := (and_true_parts hpf).1
        rw [hv2] at hv
        simp at hv
      · exact killIds_cons_visible_notfound h1 hpf
    have hnd' := hnd
    rw [hsplit, List.map_append, List.map_cons] at hnd'
    obtain ⟨hnl1, hnfl2, hdisj⟩ := List.nodup_append.mp hnd'
    have hfid_l2 : f.id ∉ l2.map Strategy.id := (List.nodup_cons.mp hnfl2).1
    have hfid_l1 : f.id ∉ l1.map Strategy.id := fun hmem =>
      hdisj hmem (List.mem_cons_self _ _)
    rw [hre] at hu
    obtain ⟨t, ht, rfl⟩ := List.mem_map.1 hu
    by_cases hc : (killIds rl ss false).contains t.id = true
    · rw [if_pos hc]
      refine iff_of_false (by simp [disableStrategy]) ?_
      rw [disableStrategy_id]
      intro hidf
      have hmem := (contains_iff_mem_int _ _).mp hc
      rw [hkill, List.mem_append] at hmem
      rcases hmem with hm | hm
      · obtain ⟨s, hs, hsid, -⟩ := killIds_subset rl l1 false t.id hm
        exact hfid_l1 (List.mem_map.2 ⟨s, hs, hsid.trans hidf⟩)
      · obtain ⟨s, hs, hsid, -⟩ := killIds_subset rl l2 true t.id hm
        exact hfid_l2 (List.mem_map.2 ⟨s, hs, hsid.trans hidf⟩)
    · rw [if_neg hc]
      by_cases hidf : t.id = f.id
      · have hfmem : f ∈ ss := by
          rw [hsplit]
          exact List.mem_append_right _ (List.mem_cons_self _ _)
        have hteq : t = f := List.inj_on_of_nodup_map hnd ht hfmem hidf
        rw [hteq]
        exact iff_of_true hfen rfl
      · refine iff_of_false ?_ hidf
        by_cases hen : t.enabled = true
        · exfalso
          apply hc
          apply (contains_iff_mem_int _ _).mpr
          rw [hkill, List.mem_append]
          have ht' := ht
          rw [hsplit] at ht'
          rcases List.mem_append.1 ht' with h1m | h2m
          · left
            have hpt := hl1 t h1m
            have hvis : shouldBeVisible rl t = false := by
              simp only [Bool.not_eq_eq_eq_not, Bool.not_true] at hpt
              rcases hv : shouldBeVisible rl t with _ | _
              · rfl
              · rw [hv, hen] at hpt
                simp at hpt
            exact killIds_mem_invisible rl l1 false t h1m hen hvis
          · rcases List.mem_cons.1 h2m with heq | h2m'
            · exact absurd (by rw [heq] : t.id = f.id) hidf
            · right
              exact killIds_mem_found rl l2 t h2m' hen
        · exact hen
  refine ⟨hnone, hsome, ?_⟩
  cases hf : ss.find? (fun s => shouldBeVisible rl s && s.enabled) with
  | none =>
    have hall := hnone hf
    have : (riskLevelEffect rl ss).filter (fun s => s.enabled) = [] := by
      rw [List.filter_eq_nil_iff]
      intro u hu
      rw [hall u hu]
      exact Bool.false_ne_true
    rw [this]
    simp
  | some f =>
    have hchar := hsome f hf
    rw [hre, ← List.countP_eq_length_filter, List.countP_map]
    have hcongr : ∀ t ∈ ss,
        (((fun s => s.enabled) ∘ (fun t =>
          if (killIds rl ss false).contains t.id then disableStrategy t else t)) t = true
          ↔ (t.id == f.id) = true) := by
      intro t ht
      rw [Function.comp_apply, beq_iff_eq]
      have hm : (if (killIds rl ss false).contains t.id then disableStrategy t else t)
          ∈ riskLevelEffect rl ss := by
        rw [hre]
        exact List.mem_map_of_mem _ ht
      have hiff := hchar _ hm
      rw [hkid t] at hiff
      exact hiff
    rw [List.countP_congr hcongr]
    have hcount : ss.countP (fun t => t.id == f.id) = (ss.map Strategy.id).count f.id := by
      rw [List.count_eq_countP, List.countP_map]
      rfl
    rw [hcount, List.count_eq_one_of_mem hnd
      (List.mem_map.2 ⟨f, List.mem_of_find?_eq_some hf, rfl⟩)]

theorem risk_level_reset_witness :
    ((riskLevelEffect "low" [⟨1, "A", some "high", true⟩, ⟨2, "B", some "low", true⟩,
        ⟨3, "C", some "low", true⟩]).filter (fun s => s.enabled)).length ≤ 1 :=
  (risk_level_reset "low" [⟨1, "A", some "high", true⟩, ⟨2, "B", some "low", true⟩,
      ⟨3, "C", some "low", true⟩] (by decide)).2.2

theorem priceDiffs_length (l : List ℚ) : (priceDiffs l).length = l.length - 1 := by
  induction l with
  | nil => rfl
  | cons a t ih =>
    cases t with
    | nil => rfl
    | cons b r =>
      simp only [priceDiffs, List.length_cons] at ih ⊢
      omega

theorem priceDiffs_getD (l : List ℚ) :
    ∀ k : ℕ, k + 1 < l.length →
      (priceDiffs l).getD k 0 = l.getD (k + 1) 0 - l.getD k 0 := by
  induction l with
  | nil => intro k h; simp at h
  | cons a t ih =>
    intro k h
    cases t with
    | nil => simp at h
    | cons b r =>
      cases k with
      | zero => rfl
      | succ m =>
        have := ih m (by simpa using h)
        simpa [priceDiffs] using this

/-- An index-range fold over consecutive price differences equals the
list fold over the corresponding segment of `priceDiffs`. -/
theorem fold_range_diffs {β : Type} (f : β → ℚ → β) (prices : List ℚ)
    (start : ℕ) :
    ∀ (n : ℕ) (init : β), start + n + 1 ≤ prices.length →
    (List.range n).foldl
        (fun acc j => f acc (prices.getD (start + j + 1) 0 - prices.getD (start + j) 0))
        init
      = (((priceDiffs prices).drop start).take n).foldl f init := by
  intro n
  induction n with
  | zero => intro init _; simp
  | succ m ih =>
    intro init h
    rw [List.range_succ, List.foldl_append, List.foldl_cons, List.foldl_nil,
      ih init (by omega)]
    have hm : m < ((priceDiffs prices).drop start).length := by
      rw [List.length_drop, priceDiffs_length]
      omega
    rw [List.take_succ, List.getElem?_eq_getElem hm]
    simp only [Option.toList_some, List.foldl_append, List.foldl_cons, List.foldl_nil]
    congr 1
    have h1 : ((priceDiffs prices).drop start)[m] = ((priceDiffs prices).drop start).getD m 0 := by
      rw [List.getD_eq_getElem?_getD, List.getElem?_eq_getElem hm]
      rfl
    have h2 : ((priceDiffs prices).drop start).getD m 0 = (priceDiffs prices).getD (start + m) 0 := by
      rw [List.getD_eq_getElem?_getD, List.getD_eq_getElem?_getD, List.getElem?_drop]
    rw [h1, h2, priceDiffs_getD _ _ (by omega)]

/-- The first-pass gains/losses fold is the pair of simple sums. -/
theorem gainsLosses_foldl (ds : List ℚ) :
    ∀ a b : ℚ,
    ds.foldl (fun gl d => if 0 ≤ d then (gl.1 + d, gl.2) else (gl.1, gl.2 - d)) (a, b)
      = (a + (ds.map (fun d => if 0 ≤ d then d else 0)).sum,
         b + (ds.map (fun d => if 0 ≤ d then 0 else -d)).sum) := by
  induction ds with
  | nil => intro a b; simp
  | cons d t ih =>
    intro a b
    rw [List.foldl_cons]
    by_cases h : 0 ≤ d
    · simp only [if_pos h, ih, List.map_cons, List.sum_cons]
      rw [Prod.mk.injEq]
      constructor <;> ring
    · simp only [if_neg h, ih, List.map_cons, List.sum_cons]
      rw [Prod.mk.injEq]
      constructor <;> ring

/-- C8: `calculateRSI` coincides with the spec's reference definition on
every price series and look-back window: below `periods + 1` samples it
is 50, otherwise simple averages over the first `periods` differences
followed by Wilder's smoothing for each later difference, ending in
`100 - 100 / (1 + avgGain / avgLoss)` under JavaScript arithmetic. -/
theorem calculateRSI_eq_rsiSpec (prices : List ℚ) (periods : ℕ) :
    calculateRSI prices periods = rsiSpec prices periods := by
  unfold calculateRSI rsiSpec
  by_cases hc : prices.length < periods + 1
  · rw [if_pos hc, if_pos hc]
  · rw [if_neg hc, if_neg hc]
    have hlen : periods + 1 ≤ prices.length := not_lt.1 hc
    have hfold1 :
        (List.range periods).foldl
          (fun (gl : ℚ × ℚ) i =>
            let difference := prices.getD (i + 1) 0 - prices.getD i 0
            if 0 ≤ difference then (gl.1 + difference, gl.2)
            else (gl.1, gl.2 - difference))
          (0, 0)
        = ((priceDiffs prices).take periods).foldl
            (fun gl d => if 0 ≤ d then (gl.1 + d, gl.2) else (gl.1, gl.2 - d))
            (0, 0) := by
      rw [List.foldl_ext _
        (fun (gl : ℚ × ℚ) j =>
          (fun gl d => if 0 ≤ d then (gl.1 + d, gl.2) else (gl.1, gl.2 - d)) gl
            (prices.getD (0 + j + 1) 0 - prices.getD (0 + j) 0))
        (0, 0)
        (fun a b _ => by simp only [Nat.zero_add])]
      rw [fold_range_diffs
        (fun (gl : ℚ × ℚ) d => if 0 ≤ d then (gl.1 + d, gl.2) else (gl.1, gl.2 - d))
        prices 0 periods (0, 0) (by omega), List.drop_zero]
    have hfold2 : ∀ av : ℚ × ℚ,
        (List.range (prices.length - (periods + 1))).foldl
          (fun (av : ℚ × ℚ) j =>
            let i := periods + 1 + j
            let difference := prices.getD i 0 - prices.getD (i - 1) 0
            if 0 ≤ difference then
              ((av.1 * ((periods : ℚ) - 1) + difference) / periods,
               (av.2 * ((periods : ℚ) - 1)) / periods)
            else
              ((av.1 * ((periods : ℚ) - 1)) / periods,
               (av.2 * ((periods : ℚ) - 1) - difference) / periods))
          av
        = ((priceDiffs prices).drop periods).foldl (wilderStep periods) av := by
      intro av
      rw [List.foldl_ext _
        (fun (av : ℚ × ℚ) j =>
          wilderStep periods av
            (prices.getD (periods + j + 1) 0 - prices.getD (periods + j) 0))
        av
        (fun a b _ => by
          have e2 : periods + 1 + b - 1 = periods + b := by omega
          have e1 : periods + 1 + b = periods + b + 1 := by omega
          have e3 : periods + b + 1 - 1 = periods + b := by omega
          simp only [wilderStep, e2, e1, e3])]
      rw [fold_range_diffs (wilderStep periods) prices periods
        (prices.length - (periods + 1)) av (by omega)]
      rw [List.take_of_length_le (by rw [List.length_drop, priceDiffs_length]; omega)]
    simp only []
    rw [hfold1, gainsLosses_foldl]
    simp only [zero_add]
    rw [hfold2]
